import Mathlib

/-!
Shallow embedding of the active-learning program `main.py` (unbalanced
active learning on MNIST).  Pools of dataset indices are Lean lists of
naturals, Python floats are modelled by exact numbers (ℚ where the code
only compares and orders, ℝ where logarithms are involved), and the
pseudo-random generator `random` is abstracted by a stream `g : Nat → Nat`
of draws, so that `random.sample` becomes a deterministic function of the
stream.  Fallible operations (Python exceptions) return `Option`/`Except`.
-/

set_option maxHeartbeats 1000000

/-- The observable state of `MNISTDataModule`: the underlying dataset
(`(input, target)` pairs, immutable) and the four index pools
`data_train` (labeled), `data_unlabeled`, `data_val`, `data_test`,
each an ordered list of dataset indices, as in `setup`. -/
structure DataModule where
  dataset : List (Nat × Nat)
  data_train : List Nat
  data_unlabeled : List Nat
  data_val : List Nat
  data_test : List Nat
deriving DecidableEq

/-- `label_indices` (main.py:22-24):
`data_train.indices += indices` and
`data_unlabeled.indices = [i for i in unlabeled if i not in indices]`.
No validation is performed by the code. -/
def label_indices (dm : DataModule) (indices : List Nat) : DataModule :=
  { dm with
    data_train := dm.data_train ++ indices
    data_unlabeled := dm.data_unlabeled.filter (fun i => decide (i ∉ indices)) }

/-- One step of sampling without replacement: draw the element at position
`g step % pool.length`, remove it, recurse.  This is the standard
selection-sampling model of Python's `random.sample`, with the random
draws supplied by the stream `g`. -/
def sampleAux (g : Nat → Nat) : Nat → Nat → List Nat → List Nat
  | 0, _, _ => []
  | k + 1, step, pool =>
    match pool[g step % pool.length]? with
    | none => []
    | some a => a :: sampleAux g k (step + 1) (pool.eraseIdx (g step % pool.length))

/-- `random.sample(pool, k)`: `k` distinct positions drawn without
replacement; raises `ValueError` (here `none`) when `k > len(pool)`. -/
def randomSample (g : Nat → Nat) (pool : List Nat) (k : Nat) : Option (List Nat) :=
  if k ≤ pool.length then some (sampleAux g k 0 pool) else none

/-- `label_randomly` (main.py:27-29): sample `amount` indices from the
unlabeled pool, then `label_indices`. -/
def label_randomly (g : Nat → Nat) (dm : DataModule) (amount : Nat) : Option DataModule :=
  (randomSample g dm.data_unlabeled amount).map (fun chosen => label_indices dm chosen)

/-- Ordering used to model `torch.topk` on the uncertainty tensor:
position `p` comes before position `q` when its score is strictly larger,
or on equal scores when its index is smaller (first-seen wins). -/
def scoreRel {β : Type} [LinearOrder β] (p q : Nat × β) : Prop :=
  q.2 < p.2 ∨ (p.2 = q.2 ∧ p.1 ≤ q.1)

instance scoreRel.decidableRel {β : Type} [LinearOrder β] :
    DecidableRel (@scoreRel β _) := fun _ _ => by
  unfold scoreRel; infer_instance

instance scoreRel.isTotal {β : Type} [LinearOrder β] :
    IsTotal (Nat × β) scoreRel := by
  constructor
  intro p q
  rcases lt_trichotomy p.2 q.2 with h | h | h
  · exact Or.inr (Or.inl h)
  · rcases Nat.le_total p.1 q.1 with h1 | h1
    · exact Or.inl (Or.inr ⟨h, h1⟩)
    · exact Or.inr (Or.inr ⟨h.symm, h1⟩)
  · exact Or.inl (Or.inl h)

instance scoreRel.isTrans {β : Type} [LinearOrder β] :
    IsTrans (Nat × β) scoreRel := by
  constructor
  intro p q r hpq hqr
  rcases hpq with h1 | ⟨h1, h1i⟩
  · rcases hqr with h2 | ⟨h2, _⟩
    · exact Or.inl (h2.trans h1)
    · exact Or.inl (h2 ▸ h1)
  · rcases hqr with h2 | ⟨h2, h2i⟩
    · exact Or.inl (h1 ▸ h2)
    · exact Or.inr ⟨h1.trans h2, h1i.trans h2i⟩

/-- `uncertainty.topk(amount)` (main.py:42): positions of the `amount`
largest scores, ranked by `scoreRel` (score descending, ties by pool
order).  The scores are enumerated with their positions and sorted. -/
def topkPositions {β : Type} [LinearOrder β] (scores : List β) (amount : Nat) : List Nat :=
  ((scores.enum.insertionSort scoreRel).take amount).map Prod.fst

/-- `label_uncertain` (main.py:32-44), with the per-index score function
abstracted into `score`: the batched loop computes one score per
unlabeled-pool member in pool order (concatenating per-batch entropy
tensors reproduces the pool-order list `dm.data_unlabeled.map score`),
`topk` raises (here
`none`) when `amount` exceeds the number of scores, the selected
positions are translated back through `data_unlabeled.indices`, and the
result is passed to `label_indices`. -/
def label_uncertain_gen {β : Type} [LinearOrder β] (score : Nat → β)
    (dm : DataModule) (amount : Nat) : Option DataModule :=
  if amount ≤ dm.data_unlabeled.length then
    some (label_indices dm
      ((topkPositions (dm.data_unlabeled.map score) amount).map
        (fun i => dm.data_unlabeled.getD i 0)))
  else
    none

/-- `torch.nn.functional.softmax(y_hat, 1)` on one row of logits. -/
noncomputable def softmax (logits : List ℝ) : List ℝ :=
  logits.map (fun x => Real.exp x / (logits.map Real.exp).sum)

/-- One term `p * p.log()` of the entropy sum (main.py:39).  In torch,
`log 0 = -inf` and `0 * -inf = NaN`; the NaN outcome is modelled as
`none`, every other outcome as `some (p * Real.log p)`. -/
noncomputable def plogp (p : ℝ) : Option ℝ :=
  if p = 0 then none else some (p * Real.log p)

/-- `(preds * preds.log()).sum(1)` on one row: the sum of the `plogp`
terms, with NaN (`none`) propagating through the sum. -/
noncomputable def sumPlogp : List ℝ → Option ℝ
  | [] => some 0
  | p :: ps =>
    match plogp p, sumPlogp ps with
    | some a, some b => some (a + b)
    | _, _ => none

/-- `-(preds * preds.log()).sum(1)` on one row (main.py:39): the
predictive entropy as the code computes it, `none` standing for NaN. -/
noncomputable def entropyCode (ps : List ℝ) : Option ℝ :=
  (sumPlogp ps).map (fun s => -s)

/-- The entropy value on rows with no zero entry (where the code's
computation is NaN-free): `-Σ p * log p`. -/
noncomputable def entropyReal (ps : List ℝ) : ℝ :=
  -((ps.map (fun p => p * Real.log p)).sum)

/-- The full uncertainty acquisition (main.py:32-44): score every
unlabeled-pool member by the entropy of the softmax of the model's
logits, then select as `label_uncertain_gen`.  (`entropyReal` agrees
with `entropyCode` on softmax outputs, which are strictly positive in
exact arithmetic, so the NaN case cannot arise here.) -/
noncomputable def label_uncertain (model : Nat → List ℝ)
    (dm : DataModule) (amount : Nat) : Option DataModule :=
  label_uncertain_gen (fun i => entropyReal (softmax (model i))) dm amount

/-- `class_indices` (main.py:13-16): for each class `c` of the dataset,
the members of `indices` whose target is `c`, in pool order. -/
def classIndices (indices : List Nat) (targets : List Nat) (numClasses : Nat) :
    List (List Nat) :=
  (List.range numClasses).map (fun c => indices.filter (fun i => decide (targets.getD i 0 = c)))

/-- The list of terms `len(indices) / balance[c]` of main.py:17, built in
enumeration order starting at class `c`; a zero multiplier is a
`ZeroDivisionError` (`none`), as is an out-of-range class (Python's
`IndexError`). -/
def divTermsAux (balance : List ℚ) : Nat → List (List Nat) → Option (List ℚ)
  | _, [] => some []
  | c, idxs :: rest =>
    if balance.getD c 0 = 0 then none
    else (divTermsAux balance (c + 1) rest).map
      (fun ts => ((idxs.length : ℚ) / balance.getD c 0) :: ts)

/-- `ref = min(len(indices) / balance[c] for c, indices in
enumerate(class_indices))` (main.py:17); `none` when a division fails or
the class list is empty (Python's `min` raises on an empty iterable). -/
def balanceRef (classIdx : List (List Nat)) (balance : List ℚ) : Option ℚ :=
  (divTermsAux balance 0 classIdx).bind (fun ts => ts.min?)

/-- `random.sample(indices, int(ref * balance[c]))` for each class in
order, concatenated (main.py:18-19).  `int` on the nonnegative product is
the floor. -/
def balanceKeepAux (g : Nat → Nat) (balance : List ℚ) (ref : ℚ) :
    Nat → List (List Nat) → Option (List Nat)
  | _, [] => some []
  | c, idxs :: rest =>
    (randomSample g idxs (Int.toNat (Rat.floor (ref * balance.getD c 0)))).bind
      (fun kept => (balanceKeepAux g balance ref (c + 1) rest).map (fun ks => kept ++ ks))

/-- `balance_classes` (main.py:12-19): partition the subset's indices by
class, compute `ref`, keep `int(ref * balance[c])` random members of each
class, and flatten the result into the new index list. -/
def balance_classes (g : Nat → Nat) (subsetIndices targets : List Nat)
    (numClasses : Nat) (balance : List ℚ) : Option (List Nat) :=
  (balanceRef (classIndices subsetIndices targets numClasses) balance).bind
    (fun ref => balanceKeepAux g balance ref 0 (classIndices subsetIndices targets numClasses))

/-- Errors named by the specification for pool management. -/
inductive PoolError where
  | invalidIndex
  | insufficientPool
deriving DecidableEq

/-- Modelled from the spec (the repository has no such checked operation;
`label_indices` is the code's counterpart): `label(indices)` moves
`indices` — which must be a subset of the current `unlabeled`, else
`InvalidIndexError` — from `unlabeled` to `labeled`, appending to
`labeled` and removing from `unlabeled` preserving the remaining order. -/
def label_spec (dm : DataModule) (indices : List Nat) : Except PoolError DataModule :=
  if ∀ i ∈ indices, i ∈ dm.data_unlabeled then
    Except.ok
      { dm with
        data_train := dm.data_train ++ indices
        data_unlabeled := dm.data_unlabeled.filter (fun i => decide (i ∉ indices)) }
  else
    Except.error PoolError.invalidIndex

/-- The round-controller state at a loop boundary of `main` (main.py:254):
the datamodule pools, the model parameters (abstract type `W`), and the
early-stopping callback's `best_score` (a float with `inf` available,
modelled as `WithTop ℚ`). -/
structure LoopState (W : Type) where
  dm : DataModule
  weights : W
  bestScore : WithTop ℚ
deriving DecidableEq

/-- One iteration of the `for _ in range(20)` loop (main.py:254-267):
`trainer.fit` updates the model weights from the labeled pool (and the
early-stopping state, abstracted as the second component of `fit`),
`trainer.test` changes no controller-visible state, `best_score` is then
overwritten with `inf` (main.py:259), and the acquisition step `choose`
picks indices that `label_indices` moves into the labeled pool
(main.py:262-265).  No model-weight reset occurs anywhere in the body. -/
def roundBody {W : Type} (fit : W → List Nat → W × WithTop ℚ)
    (choose : DataModule → Option (List Nat)) (st : LoopState W) : Option (LoopState W) :=
  let fitResult := fit st.weights st.dm.data_train
  (choose st.dm).map (fun chosen =>
    { dm := label_indices st.dm chosen
      weights := fitResult.1
      bestScore := (⊤ : WithTop ℚ) })

/-- `n` iterations of the active-learning loop (`main` runs 20). -/
def runRounds {W : Type} (fit : W → List Nat → W × WithTop ℚ)
    (choose : DataModule → Option (List Nat)) : Nat → LoopState W → Option (LoopState W)
  | 0, st => some st
  | n + 1, st => (roundBody fit choose st).bind (runRounds fit choose n)

/-- The improvement test of the `EarlyStopping` callback with
`monitor="validation loss"` and default `mode="min"`, `min_delta=0`:
a current score improves on the best iff it is strictly smaller. -/
def isImprovement (current : ℚ) (best : WithTop ℚ) : Prop :=
  (current : WithTop ℚ) < best

/-! ### List helper lemmas -/

theorem getElem_cons_eraseIdx_perm (l : List Nat) (i : Nat) (h : i < l.length) :
    (l[i] :: l.eraseIdx i).Perm l := by
  induction l generalizing i with
  | nil => simp at h
  | cons a t ih =>
    cases i with
    | zero => simp [List.eraseIdx]
    | succ j =>
      have hj : j < t.length := by simpa using h
      have step1 : ((a :: t)[j + 1] :: (a :: t).eraseIdx (j + 1)) = t[j] :: a :: t.eraseIdx j := by
        simp [List.eraseIdx]
      rw [step1]
      exact (List.Perm.swap a t[j] (t.eraseIdx j)).trans ((ih j hj).cons a)

theorem sampleAux_length (g : Nat → Nat) :
    ∀ (k step : Nat) (pool : List Nat), k ≤ pool.length →
      (sampleAux g k step pool).length = k := by
  intro k
  induction k with
  | zero => intro step pool _; simp [sampleAux]
  | succ n ih =>
    intro step pool h
    have hlen : 0 < pool.length := lt_of_lt_of_le (Nat.succ_pos n) h
    have hidx : g step % pool.length < pool.length := Nat.mod_lt _ hlen
    have herase : (pool.eraseIdx (g step % pool.length)).length = pool.length - 1 := by
      rw [List.length_eraseIdx]
      simp [hidx]
    simp only [sampleAux, List.getElem?_eq_getElem hidx, List.length_cons]
    rw [ih (step + 1) _ (by omega)]

theorem sampleAux_subset (g : Nat → Nat) :
    ∀ (k step : Nat) (pool : List Nat), sampleAux g k step pool ⊆ pool := by
  intro k
  induction k with
  | zero => intro step pool; simp [sampleAux]
  | succ n ih =>
    intro step pool
    cases hx : pool[g step % pool.length]? with
    | none => simp [sampleAux, hx]
    | some a =>
      have ha : a ∈ pool := List.getElem?_mem hx
      simp only [sampleAux, hx]
      exact List.cons_subset.mpr
        ⟨ha, (ih (step + 1) _).trans (List.eraseIdx_subset _ _)⟩

theorem sampleAux_perm (g : Nat → Nat) :
    ∀ (k step : Nat) (pool : List Nat), k = pool.length →
      (sampleAux g k step pool).Perm pool := by
  intro k
  induction k with
  | zero =>
    intro step pool h
    cases pool with
    | nil => simp [sampleAux]
    | cons a t => simp at h
  | succ n ih =>
    intro step pool h
    have hlen : 0 < pool.length := by omega
    have hidx : g step % pool.length < pool.length := Nat.mod_lt _ hlen
    have herase : n = (pool.eraseIdx (g step % pool.length)).length := by
      rw [List.length_eraseIdx]
      simp [hidx]
      omega
    simp only [sampleAux, List.getElem?_eq_getElem hidx]
    exact ((ih (step + 1) _ herase).cons _).trans
      (getElem_cons_eraseIdx_perm pool _ hidx)

theorem sampleAux_nodup (g : Nat → Nat) :
    ∀ (k step : Nat) (pool : List Nat), pool.Nodup →
      (sampleAux g k step pool).Nodup := by
  intro k
  induction k with
  | zero => intro step pool _; simp [sampleAux]
  | succ n ih =>
    intro step pool hnd
    cases hx : pool[g step % pool.length]? with
    | none => simp [sampleAux, hx]
    | some a =>
      have hidx : g step % pool.length < pool.length := by
        by_contra hge
        rw [List.getElem?_eq_none (by omega)] at hx
        exact Option.noConfusion hx
      have ha : a = pool[g step % pool.length] := by
        rw [List.getElem?_eq_getElem hidx] at hx
        exact (Option.some.inj hx).symm
      have hperm := getElem_cons_eraseIdx_perm pool _ hidx
      have hcons : (pool[g step % pool.length] :: pool.eraseIdx (g step % pool.length)).Nodup :=
        hperm.symm.nodup hnd
      rw [List.nodup_cons] at hcons
      simp only [sampleAux, hx]
      rw [List.nodup_cons]
      constructor
      · intro hmem
        exact hcons.1 (ha ▸ sampleAux_subset g n (step + 1) _ hmem)
      · exact ih (step + 1) _ hcons.2

theorem randomSample_eq_none_iff (g : Nat → Nat) (pool : List Nat) (k : Nat) :
    randomSample g pool k = none ↔ pool.length < k := by
  unfold randomSample
  split <;> simp <;> omega

theorem randomSample_eq_some (g : Nat → Nat) (pool : List Nat) (k : Nat)
    (h : k ≤ pool.length) : randomSample g pool k = some (sampleAux g k 0 pool) := by
  unfold randomSample
  rw [if_pos h]

theorem filter_not_mem_length (unl chosen : List Nat) (hnd : unl.Nodup)
    (hcnd : chosen.Nodup) (hsub : chosen ⊆ unl) :
    (unl.filter (fun i => decide (i ∉ chosen))).length = unl.length - chosen.length := by
  have hperm := List.filter_append_perm (fun i => decide (i ∈ chosen)) unl
  have h1 : (unl.filter (fun i => decide (i ∈ chosen))).Perm chosen := by
    apply List.perm_of_nodup_nodup_toFinset_eq (hnd.filter _) hcnd
    ext x
    simp only [List.mem_toFinset, List.mem_filter, decide_eq_true_eq]
    exact ⟨fun hx => hx.2, fun hx => ⟨hsub hx, hx⟩⟩
  have hlen := hperm.length_eq
  rw [List.length_append] at hlen
  have h2 : (unl.filter (fun i => !decide (i ∈ chosen))) =
      (unl.filter (fun i => decide (i ∉ chosen))) := by
    simp [decide_not]
  rw [h2] at hlen
  rw [h1.length_eq] at hlen
  omega

theorem mem_label_indices_unlabeled (dm : DataModule) (idx : List Nat) (x : Nat) :
    x ∈ (label_indices dm idx).data_unlabeled ↔ x ∈ dm.data_unlabeled ∧ x ∉ idx := by
  simp [label_indices, List.mem_filter]

theorem nodup_subset_length_le (chosen unl : List Nat) (hcnd : chosen.Nodup)
    (hsub : chosen ⊆ unl) : chosen.length ≤ unl.length := by
  calc chosen.length = chosen.toFinset.card := (List.toFinset_card_of_nodup hcnd).symm
    _ ≤ unl.toFinset.card :=
        Finset.card_le_card (fun x hx => List.mem_toFinset.mpr (hsub (List.mem_toFinset.mp hx)))
    _ ≤ unl.length := unl.toFinset_card_le

/-- C3 counterexample: calling the label operation with `[5]`, which is
not a subset of the unlabeled pool `[1, 2]`, does not fail: the code has
no `InvalidIndexError` path.  The spec-modelled `label_spec` rejects the
call, yet `label_indices` proceeds, appending the foreign index `5` to
the labeled pool. -/
theorem label_indices_no_validation_cex :
    label_spec ⟨[], [0], [1, 2], [], []⟩ [5] = Except.error PoolError.invalidIndex ∧
    (label_indices ⟨[], [0], [1, 2], [], []⟩ [5]).data_train = [0, 5] ∧
    (label_indices ⟨[], [0], [1, 2], [], []⟩ [5]).data_unlabeled = [1, 2] := by
  refine ⟨?_, by decide, by decide⟩
  have hns : ¬ ∀ i ∈ ([5] : List Nat), i ∈ (DataModule.mk [] [0] [1, 2] [] []).data_unlabeled := by
    decide
  unfold label_spec
  rw [if_neg hns]

/-- C3 (amended): `label_indices` performs no validation and never fails;
when the given indices are a subset of the current unlabeled pool it
implements the spec's `label` exactly — the indices are appended to
`labeled` in insertion order and removed from `unlabeled` without
disturbing the relative order of the remaining members (the new
unlabeled pool is a sublist of the old one containing exactly the
non-moved members). -/
theorem label_indices_moves_subset (dm : DataModule) (idx : List Nat)
    (hsub : ∀ i ∈ idx, i ∈ dm.data_unlabeled) :
    label_spec dm idx = Except.ok (label_indices dm idx) ∧
    (label_indices dm idx).data_train = dm.data_train ++ idx ∧
    (label_indices dm idx).data_unlabeled.Sublist dm.data_unlabeled ∧
    (∀ x, x ∈ (label_indices dm idx).data_unlabeled ↔ x ∈ dm.data_unlabeled ∧ x ∉ idx) := by
  refine ⟨?_, rfl, List.filter_sublist _, fun x => mem_label_indices_unlabeled dm idx x⟩
  unfold label_spec
  rw [if_pos hsub]
  rfl

/-- C3 witness: a concrete in-range call, checked against the theorem. -/
theorem label_indices_moves_subset_witness :
    label_spec ⟨[], [0], [1, 2], [], []⟩ [1] =
      Except.ok (label_indices ⟨[], [0], [1, 2], [], []⟩ [1]) ∧
    (label_indices ⟨[], [0], [1, 2], [], []⟩ [1]).data_unlabeled.Sublist
      (DataModule.mk [] [0] [1, 2] [] []).data_unlabeled ∧
    (1 ∈ (label_indices ⟨[], [0], [1, 2], [], []⟩ [1]).data_unlabeled ↔
      1 ∈ (DataModule.mk [] [0] [1, 2] [] []).data_unlabeled ∧ 1 ∉ ([1] : List Nat)) :=
  ⟨(label_indices_moves_subset ⟨[], [0], [1, 2], [], []⟩ [1] (by decide)).1,
   (label_indices_moves_subset ⟨[], [0], [1, 2], [], []⟩ [1] (by decide)).2.2.1,
   (label_indices_moves_subset ⟨[], [0], [1, 2], [], []⟩ [1] (by decide)).2.2.2 1⟩

/-- C4: a `label_indices` call on a duplicate-free subset of the
unlabeled pool, starting from disjoint labeled/unlabeled pools, leaves
the pools disjoint and preserves the combined size
`|labeled| + |unlabeled|`: indices move, none are created or
destroyed. -/
theorem label_preserves_partition (dm : DataModule) (idx : List Nat)
    (hnd : dm.data_unlabeled.Nodup) (hind : idx.Nodup)
    (hsub : idx ⊆ dm.data_unlabeled)
    (hdisj : ∀ x ∈ dm.data_train, x ∉ dm.data_unlabeled) :
    (∀ x ∈ (label_indices dm idx).data_train, x ∉ (label_indices dm idx).data_unlabeled) ∧
    (label_indices dm idx).data_train.length + (label_indices dm idx).data_unlabeled.length
      = dm.data_train.length + dm.data_unlabeled.length := by
  constructor
  · intro x hx hmem
    rw [mem_label_indices_unlabeled] at hmem
    rcases List.mem_append.mp hx with h | h
    · exact hdisj x h hmem.1
    · exact hmem.2 h
  · have hlen := filter_not_mem_length dm.data_unlabeled idx hnd hind hsub
    have hle := nodup_subset_length_le idx dm.data_unlabeled hind hsub
    show (dm.data_train ++ idx).length +
      (dm.data_unlabeled.filter (fun i => decide (i ∉ idx))).length = _
    rw [List.length_append, hlen]
    omega

/-- C4 witness: the size invariant at a concrete call. -/
theorem label_preserves_partition_witness :
    (label_indices ⟨[], [0], [1, 2], [], []⟩ [1]).data_train.length +
      (label_indices ⟨[], [0], [1, 2], [], []⟩ [1]).data_unlabeled.length
      = (DataModule.mk [] [0] [1, 2] [] []).data_train.length +
        (DataModule.mk [] [0] [1, 2] [] []).data_unlabeled.length :=
  (label_preserves_partition ⟨[], [0], [1, 2], [], []⟩ [1]
    (by decide) (by decide) (by decide) (by decide)).2

/-- C10: every labeling operation (`label_indices`, `label_randomly`,
`label_uncertain` in its score-abstracted form) modifies only the
labeled and unlabeled index lists: the validation pool, the test pool
and the dataset contents are unchanged by every call. -/
theorem labeling_frame :
    (∀ (dm : DataModule) (idx : List Nat),
        (label_indices dm idx).data_val = dm.data_val ∧
        (label_indices dm idx).data_test = dm.data_test ∧
        (label_indices dm idx).dataset = dm.dataset) ∧
    (∀ (g : Nat → Nat) (dm dm' : DataModule) (amount : Nat),
        label_randomly g dm amount = some dm' →
        dm'.data_val = dm.data_val ∧ dm'.data_test = dm.data_test ∧
        dm'.dataset = dm.dataset) ∧
    (∀ (β : Type) [LinearOrder β] (score : Nat → β) (dm dm' : DataModule) (amount : Nat),
        label_uncertain_gen score dm amount = some dm' →
        dm'.data_val = dm.data_val ∧ dm'.data_test = dm.data_test ∧
        dm'.dataset = dm.dataset) := by
  refine ⟨fun dm idx => ⟨rfl, rfl, rfl⟩, ?_, ?_⟩
  · intro g dm dm' amount h
    unfold label_randomly at h
    rcases Option.map_eq_some'.mp h with ⟨chosen, _, rfl⟩
    exact ⟨rfl, rfl, rfl⟩
  · intro β _ score dm dm' amount h
    unfold label_uncertain_gen at h
    split at h
    · cases h
      exact ⟨rfl, rfl, rfl⟩
    · cases h

/-- C10 witness: frame preservation at a concrete `label_randomly` call. -/
theorem labeling_frame_witness :
    (label_indices ⟨[], [0], [1, 2], [3], [4]⟩ [1]).data_val =
      (DataModule.mk [] [0] [1, 2] [3] [4]).data_val ∧
    (label_indices ⟨[], [0], [1, 2], [3], [4]⟩ [1]).data_test =
      (DataModule.mk [] [0] [1, 2] [3] [4]).data_test ∧
    (label_indices ⟨[], [0], [1, 2], [3], [4]⟩ [1]).dataset =
      (DataModule.mk [] [0] [1, 2] [3] [4]).dataset :=
  labeling_frame.2.1 (fun _ => 0) ⟨[], [0], [1, 2], [3], [4]⟩
    (label_indices ⟨[], [0], [1, 2], [3], [4]⟩ [1]) 1 (by decide)

/-- C1 counterexample: model the weights as a counter that training
increments (`fit w _ = w + 1`, fresh value `0`).  After round 1 the
state entering round 2 carries weights `1`, not the freshly-initialized
`0`: no statement of the loop body (main.py:254-267) reinitializes the
model, so round 2 trains the weights produced by round 1. -/
theorem weight_reset_cex :
    (runRounds (fun (w : Nat) _ => (w + 1, ((0 : ℚ) : WithTop ℚ)))
        (fun dm => randomSample (fun _ => 0) dm.data_unlabeled 1) 1
        ⟨⟨[], [0], [1, 2, 3], [], []⟩, 0, ((0 : ℚ) : WithTop ℚ)⟩).map LoopState.weights
      = some 1 ∧ (1 : Nat) ≠ 0 :=
  ⟨by decide, by decide⟩

/-- C1 (amended): the round controller performs no model-weight reset:
in every successful round, the weights carried into the next round are
exactly the trainer's output on the weights carried in — each round's
training continues from the previous round's weights rather than from a
freshly reinitialized model.  The only per-round reset is the
early-stopping best score. -/
theorem roundBody_no_weight_reset {W : Type} (fit : W → List Nat → W × WithTop ℚ)
    (choose : DataModule → Option (List Nat)) (st st' : LoopState W)
    (h : roundBody fit choose st = some st') :
    st'.weights = (fit st.weights st.dm.data_train).1 := by
  unfold roundBody at h
  rcases Option.map_eq_some'.mp h with ⟨chosen, _, rfl⟩
  rfl

/-- C1 witness: the weights after a concrete round equal the trained
weights, applied through the theorem. -/
theorem roundBody_no_weight_reset_witness :
    (LoopState.mk (label_indices ⟨[], [0], [1, 2, 3], [], []⟩ [1]) 1
      (⊤ : WithTop ℚ)).weights
      = ((fun (w : Nat) (_ : List Nat) => (w + 1, ((0 : ℚ) : WithTop ℚ))) 0 [0]).1 :=
  roundBody_no_weight_reset (fun (w : Nat) _ => (w + 1, ((0 : ℚ) : WithTop ℚ)))
    (fun dm => randomSample (fun _ => 0) dm.data_unlabeled 1)
    ⟨⟨[], [0], [1, 2, 3], [], []⟩, 0, ((0 : ℚ) : WithTop ℚ)⟩
    ⟨label_indices ⟨[], [0], [1, 2, 3], [], []⟩ [1], 1, ⊤⟩
    (by decide)

/-- C9: after the early-stopping reset in the round body
(`best_score = inf`, main.py:259), the best score is the sentinel `⊤`,
which compares worse than every finite score under the min-mode
comparison of the monitored validation loss: every finite value is an
improvement on it. -/
theorem roundBody_resets_best {W : Type} (fit : W → List Nat → W × WithTop ℚ)
    (choose : DataModule → Option (List Nat)) (st st' : LoopState W)
    (h : roundBody fit choose st = some st') :
    st'.bestScore = ⊤ ∧ ∀ x : ℚ, isImprovement x st'.bestScore := by
  unfold roundBody at h
  rcases Option.map_eq_some'.mp h with ⟨chosen, _, rfl⟩
  refine ⟨rfl, fun x => ?_⟩
  show (x : WithTop ℚ) < ⊤
  exact WithTop.coe_lt_top x

/-- C9 witness: at a concrete round, the post-reset best score is `⊤`
and a validation loss of `0` counts as an improvement. -/
theorem roundBody_resets_best_witness :
    (LoopState.mk (label_indices ⟨[], [0], [1, 2, 3], [], []⟩ [1]) 1
      (⊤ : WithTop ℚ)).bestScore = ⊤ ∧
    isImprovement 0
      (LoopState.mk (label_indices ⟨[], [0], [1, 2, 3], [], []⟩ [1]) 1
        (⊤ : WithTop ℚ)).bestScore :=
  ⟨(roundBody_resets_best (fun (w : Nat) _ => (w + 1, ((0 : ℚ) : WithTop ℚ)))
      (fun dm => randomSample (fun _ => 0) dm.data_unlabeled 1)
      ⟨⟨[], [0], [1, 2, 3], [], []⟩, 0, ((0 : ℚ) : WithTop ℚ)⟩
      ⟨label_indices ⟨[], [0], [1, 2, 3], [], []⟩ [1], 1, ⊤⟩
      (by decide)).1,
   (roundBody_resets_best (fun (w : Nat) _ => (w + 1, ((0 : ℚ) : WithTop ℚ)))
      (fun dm => randomSample (fun _ => 0) dm.data_unlabeled 1)
      ⟨⟨[], [0], [1, 2, 3], [], []⟩, 0, ((0 : ℚ) : WithTop ℚ)⟩
      ⟨label_indices ⟨[], [0], [1, 2, 3], [], []⟩ [1], 1, ⊤⟩
      (by decide)).2 0⟩

/-- C2 counterexample: two rounds of the loop starting from labeled pool
`[0]` (size 1) with acquisition size 1: the code labels on every round,
ending with 3 labeled indices, whereas the claim predicts
`initial + (rounds - 1) * amount = 2` labeled indices (no labeling on
the final round). -/
theorem final_round_labels_cex :
    (runRounds (fun (w : Nat) _ => (w, ((0 : ℚ) : WithTop ℚ)))
        (fun dm => randomSample (fun _ => 0) dm.data_unlabeled 1) 2
        ⟨⟨[], [0], [1, 2, 3], [], []⟩, 0, ((0 : ℚ) : WithTop ℚ)⟩).map
        (fun st => st.dm.data_train.length)
      = some 3 ∧ (3 : Nat) ≠ 2 :=
  ⟨by decide, by decide⟩

/-- C2 (amended): the labeling step runs on every round, including the
final one: over `n` rounds with the random acquisition strategy drawing
`amount` indices per round, the labeled pool grows by `n * amount` (not
`(n - 1) * amount`) and the unlabeled pool shrinks by the same count,
provided the unlabeled pool is duplicate-free and large enough. -/
theorem runRounds_labels_every_round {W : Type} (fit : W → List Nat → W × WithTop ℚ)
    (g : Nat → Nat) (amount : Nat) :
    ∀ (n : Nat) (st : LoopState W),
      st.dm.data_unlabeled.Nodup →
      n * amount ≤ st.dm.data_unlabeled.length →
      ∃ st', runRounds fit (fun dm => randomSample g dm.data_unlabeled amount) n st = some st' ∧
        st'.dm.data_train.length = st.dm.data_train.length + n * amount ∧
        st'.dm.data_unlabeled.length = st.dm.data_unlabeled.length - n * amount := by
  intro n
  induction n with
  | zero =>
    intro st hnd hlen
    exact ⟨st, rfl, by simp, by simp⟩
  | succ m ih =>
    intro st hnd hlen
    rw [Nat.succ_mul] at hlen
    have hamount : amount ≤ st.dm.data_unlabeled.length := by
      have h0 : 0 ≤ m * amount := Nat.zero_le _
      omega
    have hchosen : randomSample g st.dm.data_unlabeled amount
        = some (sampleAux g amount 0 st.dm.data_unlabeled) :=
      randomSample_eq_some g st.dm.data_unlabeled amount hamount
    have hclen : (sampleAux g amount 0 st.dm.data_unlabeled).length = amount :=
      sampleAux_length g amount 0 st.dm.data_unlabeled hamount
    have hcnd : (sampleAux g amount 0 st.dm.data_unlabeled).Nodup :=
      sampleAux_nodup g amount 0 st.dm.data_unlabeled hnd
    have hcsub : (sampleAux g amount 0 st.dm.data_unlabeled) ⊆ st.dm.data_unlabeled :=
      sampleAux_subset g amount 0 st.dm.data_unlabeled
    have hflen := filter_not_mem_length st.dm.data_unlabeled
      (sampleAux g amount 0 st.dm.data_unlabeled) hnd hcnd hcsub
    have hround : roundBody fit (fun dm => randomSample g dm.data_unlabeled amount) st
        = some ⟨label_indices st.dm (sampleAux g amount 0 st.dm.data_unlabeled),
            (fit st.weights st.dm.data_train).1, ⊤⟩ := by
      show (randomSample g st.dm.data_unlabeled amount).map _ = _
      rw [hchosen]
      rfl
    have h1nd : (label_indices st.dm
        (sampleAux g amount 0 st.dm.data_unlabeled)).data_unlabeled.Nodup := hnd.filter _
    have h1train : (label_indices st.dm
        (sampleAux g amount 0 st.dm.data_unlabeled)).data_train.length
        = st.dm.data_train.length + amount := by
      show (st.dm.data_train ++ _).length = _
      rw [List.length_append, hclen]
    have h1unl : (label_indices st.dm
        (sampleAux g amount 0 st.dm.data_unlabeled)).data_unlabeled.length
        = st.dm.data_unlabeled.length - amount := by
      show (st.dm.data_unlabeled.filter _).length = _
      rw [hflen, hclen]
    have h1len : m * amount ≤ (label_indices st.dm
        (sampleAux g amount 0 st.dm.data_unlabeled)).data_unlabeled.length := by
      rw [h1unl]
      omega
    obtain ⟨st', hrun, htrain, hunl⟩ := ih
      ⟨label_indices st.dm (sampleAux g amount 0 st.dm.data_unlabeled),
        (fit st.weights st.dm.data_train).1, ⊤⟩ h1nd h1len
    refine ⟨st', ?_, ?_, ?_⟩
    · show (roundBody fit (fun dm => randomSample g dm.data_unlabeled amount) st).bind _
        = some st'
      rw [hround]
      exact hrun
    · rw [htrain]
      show (label_indices st.dm
        (sampleAux g amount 0 st.dm.data_unlabeled)).data_train.length + m * amount = _
      rw [h1train, Nat.succ_mul]
      omega
    · rw [hunl]
      show (label_indices st.dm
        (sampleAux g amount 0 st.dm.data_unlabeled)).data_unlabeled.length - m * amount = _
      rw [h1unl, Nat.succ_mul]
      omega

/-- C2 witness: two rounds on a concrete state, via the theorem. -/
theorem runRounds_labels_every_round_witness :
    ∃ st', runRounds (fun (w : Nat) _ => (w, ((0 : ℚ) : WithTop ℚ)))
        (fun dm => randomSample (fun _ => 0) dm.data_unlabeled 1) 2
        ⟨⟨[], [0], [1, 2, 3], [], []⟩, 0, ((0 : ℚ) : WithTop ℚ)⟩ = some st' ∧
      st'.dm.data_train.length = 1 + 2 * 1 ∧
      st'.dm.data_unlabeled.length = 3 - 2 * 1 :=
  runRounds_labels_every_round (fun (w : Nat) _ => (w, ((0 : ℚ) : WithTop ℚ)))
    (fun _ => 0) 1 2 ⟨⟨[], [0], [1, 2, 3], [], []⟩, 0, ((0 : ℚ) : WithTop ℚ)⟩
    (by decide) (by decide)

/-! ### Top-k selection lemmas -/

theorem topkPositions_nodup {β : Type} [LinearOrder β] (scores : List β) (amount : Nat) :
    (topkPositions scores amount).Nodup := by
  have hperm : ((scores.enum.insertionSort scoreRel).map Prod.fst).Perm
      (List.range scores.length) := by
    have h := (List.perm_insertionSort scoreRel scores.enum).map Prod.fst
    rwa [List.enum_map_fst] at h
  have hnd : ((scores.enum.insertionSort scoreRel).map Prod.fst).Nodup :=
    hperm.nodup_iff.mpr (List.nodup_range _)
  exact (((List.take_sublist amount _).map Prod.fst).nodup hnd)

theorem topkPositions_lt {β : Type} [LinearOrder β] (scores : List β) (amount : Nat) :
    ∀ i ∈ topkPositions scores amount, i < scores.length := by
  intro i hi
  rcases List.mem_map.mp hi with ⟨p, hpmem, hpfst⟩
  obtain ⟨pi, pv⟩ := p
  cases hpfst
  have hpin : (pi, pv) ∈ scores.enum :=
    (List.perm_insertionSort scoreRel scores.enum).subset
      ((List.take_sublist amount _).subset hpmem)
  exact (List.mem_enum hpin).1

theorem topkPositions_length {β : Type} [LinearOrder β] (scores : List β) (amount : Nat)
    (h : amount ≤ scores.length) : (topkPositions scores amount).length = amount := by
  unfold topkPositions
  rw [List.length_map, List.length_take,
    (List.perm_insertionSort scoreRel scores.enum).length_eq, List.enum_length]
  omega

theorem nodup_getD_map (unl : List Nat) (pos : List Nat) (hnd : unl.Nodup)
    (hpos : ∀ i ∈ pos, i < unl.length) (hpnd : pos.Nodup) :
    (pos.map (fun i => unl.getD i 0)).Nodup ∧ (pos.map (fun i => unl.getD i 0)) ⊆ unl := by
  constructor
  · apply List.Nodup.map_on ?_ hpnd
    intro x hx y hy hxy
    have hxl := hpos x hx
    have hyl := hpos y hy
    rw [List.getD_eq_getElem _ _ hxl, List.getD_eq_getElem _ _ hyl] at hxy
    have h2 : unl.get ⟨x, hxl⟩ = unl.get ⟨y, hyl⟩ := by simpa using hxy
    have h3 := List.nodup_iff_injective_get.mp hnd h2
    exact congrArg Fin.val h3
  · intro a ha
    rcases List.mem_map.mp ha with ⟨i, hi, rfl⟩
    have hil := hpos i hi
    rw [List.getD_eq_getElem _ _ hil]
    exact List.getElem_mem hil

/-- C7: both acquisition variants fail exactly when the requested count
exceeds the unlabeled pool's size (`random.sample` and `topk` both
raise then, and only then); random selection with count equal to the
pool size succeeds and returns the entire pool up to order (a
permutation); and for any admissible count, both variants' chosen index
lists are duplicate-free subsets of the unlabeled pool of exactly the
requested length. -/
theorem select_contract :
    (∀ (g : Nat → Nat) (dm : DataModule) (amount : Nat),
        (label_randomly g dm amount = none ↔ dm.data_unlabeled.length < amount)) ∧
    (∀ (β : Type) [LinearOrder β] (score : Nat → β) (dm : DataModule) (amount : Nat),
        (label_uncertain_gen score dm amount = none ↔ dm.data_unlabeled.length < amount)) ∧
    (∀ (g : Nat → Nat) (dm : DataModule), dm.data_unlabeled.Nodup →
        ∃ chosen, randomSample g dm.data_unlabeled dm.data_unlabeled.length = some chosen ∧
          chosen.Perm dm.data_unlabeled ∧ chosen.Nodup ∧
          label_randomly g dm dm.data_unlabeled.length = some (label_indices dm chosen)) ∧
    (∀ (g : Nat → Nat) (dm : DataModule) (amount : Nat), dm.data_unlabeled.Nodup →
        amount ≤ dm.data_unlabeled.length →
        ∃ chosen, randomSample g dm.data_unlabeled amount = some chosen ∧
          chosen.Nodup ∧ chosen ⊆ dm.data_unlabeled ∧ chosen.length = amount) ∧
    (∀ (β : Type) [LinearOrder β] (score : Nat → β) (dm : DataModule) (amount : Nat),
        dm.data_unlabeled.Nodup → amount ≤ dm.data_unlabeled.length →
        ∃ chosen, chosen.Nodup ∧ chosen ⊆ dm.data_unlabeled ∧ chosen.length = amount ∧
          label_uncertain_gen score dm amount = some (label_indices dm chosen)) := by
  refine ⟨?_, ?_, ?_, ?_, ?_⟩
  · intro g dm amount
    unfold label_randomly
    rw [Option.map_eq_none']
    exact randomSample_eq_none_iff g _ amount
  · intro β _ score dm amount
    unfold label_uncertain_gen
    by_cases h : amount ≤ dm.data_unlabeled.length
    · rw [if_pos h]
      simp only [reduceCtorEq, false_iff]
      omega
    · rw [if_neg h]
      simp only [true_iff]
      omega
  · intro g dm hnd
    refine ⟨sampleAux g dm.data_unlabeled.length 0 dm.data_unlabeled,
      randomSample_eq_some g _ _ le_rfl,
      sampleAux_perm g _ 0 _ rfl,
      sampleAux_nodup g _ 0 _ hnd, ?_⟩
    unfold label_randomly
    rw [randomSample_eq_some g _ _ le_rfl]
    rfl
  · intro g dm amount hnd hle
    exact ⟨sampleAux g amount 0 _, randomSample_eq_some g _ _ hle,
      sampleAux_nodup g _ _ _ hnd, sampleAux_subset g _ _ _,
      sampleAux_length g _ _ _ hle⟩
  · intro β _ score dm amount hnd hle
    have hslen : (dm.data_unlabeled.map score).length = dm.data_unlabeled.length :=
      List.length_map _ _
    have hplt : ∀ i ∈ topkPositions (dm.data_unlabeled.map score) amount,
        i < dm.data_unlabeled.length := by
      intro i hi
      have h := topkPositions_lt (dm.data_unlabeled.map score) amount i hi
      rwa [hslen] at h
    have hpnd := topkPositions_nodup (dm.data_unlabeled.map score) amount
    have hplen : (topkPositions (dm.data_unlabeled.map score) amount).length = amount :=
      topkPositions_length _ _ (by rwa [hslen])
    obtain ⟨hcnd, hcsub⟩ := nodup_getD_map dm.data_unlabeled
      (topkPositions (dm.data_unlabeled.map score) amount) hnd hplt hpnd
    refine ⟨(topkPositions (dm.data_unlabeled.map score) amount).map
        (fun i => dm.data_unlabeled.getD i 0),
      hcnd, hcsub, by rw [List.length_map, hplen], ?_⟩
    unfold label_uncertain_gen
    rw [if_pos hle]

/-- C7 witness: requesting the whole pool from a concrete pool of size 2
succeeds and returns a permutation of the pool. -/
theorem select_contract_witness :
    ∃ chosen, randomSample (fun _ => 0)
        (DataModule.mk [] [0] [1, 2] [] []).data_unlabeled
        (DataModule.mk [] [0] [1, 2] [] []).data_unlabeled.length = some chosen ∧
      chosen.Perm (DataModule.mk [] [0] [1, 2] [] []).data_unlabeled ∧ chosen.Nodup ∧
      label_randomly (fun _ => 0) ⟨[], [0], [1, 2], [], []⟩
        (DataModule.mk [] [0] [1, 2] [] []).data_unlabeled.length
        = some (label_indices ⟨[], [0], [1, 2], [], []⟩ chosen) :=
  select_contract.2.2.1 (fun _ => 0) ⟨[], [0], [1, 2], [], []⟩ (by decide)

/-- C8: uncertainty selection is deterministic given deterministic model
output — two score functions agreeing on the pool produce identical
selections — and it picks the `amount` positions of highest score,
breaking ties by pool order (first-seen wins): every selected position
beats every unselected one, either strictly on score or on equal score
with the smaller (earlier) position. -/
theorem uncertain_selection_deterministic :
    (∀ (β : Type) [LinearOrder β] (s1 s2 : Nat → β) (dm : DataModule) (amount : Nat),
        (∀ i ∈ dm.data_unlabeled, s1 i = s2 i) →
        label_uncertain_gen s1 dm amount = label_uncertain_gen s2 dm amount) ∧
    (∀ (β : Type) [LinearOrder β] (scores : List β) (amount : Nat),
        ∀ i ∈ topkPositions scores amount, ∀ j,
          ∀ (hi : i < scores.length) (hj : j < scores.length),
            j ∉ topkPositions scores amount →
            scores[j] < scores[i] ∨ (scores[j] = scores[i] ∧ i < j)) := by
  constructor
  · intro β _ s1 s2 dm amount h
    unfold label_uncertain_gen
    rw [List.map_congr_left h]
  · intro β _ scores amount i hi j hilt hjlt hj
    have hsort : List.Pairwise scoreRel (scores.enum.insertionSort scoreRel) :=
      List.sorted_insertionSort scoreRel scores.enum
    have hperm : (scores.enum.insertionSort scoreRel).Perm scores.enum :=
      List.perm_insertionSort _ _
    rcases List.mem_map.mp hi with ⟨p, hpmem, hpfst⟩
    obtain ⟨pi, pv⟩ := p
    have hpi : pi = i := hpfst
    subst hpi
    have hpin : (pi, pv) ∈ scores.enum :=
      hperm.subset ((List.take_sublist amount _).subset hpmem)
    have hpval : pv = scores[pi] := (List.mem_enum hpin).2
    have hjenum : (j, scores[j]) ∈ scores.enum := by
      have hjl : j < scores.enum.length := by rwa [List.enum_length]
      have hg : scores.enum[j] = (j, scores[j]) := List.getElem_enum scores j hjl
      rw [← hg]
      exact List.getElem_mem hjl
    have hjsorted : (j, scores[j]) ∈ scores.enum.insertionSort scoreRel :=
      hperm.symm.subset hjenum
    have hjdrop : (j, scores[j]) ∈ (scores.enum.insertionSort scoreRel).drop amount := by
      rw [← List.take_append_drop amount (scores.enum.insertionSort scoreRel)] at hjsorted
      rcases List.mem_append.mp hjsorted with hmem | hmem
      · exact absurd (List.mem_map.mpr ⟨(j, scores[j]), hmem, rfl⟩) hj
      · exact hmem
    have hpw := hsort
    rw [← List.take_append_drop amount (scores.enum.insertionSort scoreRel)] at hpw
    rcases List.pairwise_append.mp hpw with ⟨_, _, hcross⟩
    have hrel : scoreRel (pi, pv) (j, scores[j]) := hcross _ hpmem _ hjdrop
    have hne : pi ≠ j := fun hij => hj (hij ▸ hi)
    rw [hpval] at hrel
    unfold scoreRel at hrel
    rcases hrel with h | ⟨heq, hle⟩
    · exact Or.inl h
    · exact Or.inr ⟨heq.symm, lt_of_le_of_ne hle hne⟩

/-- C8 witness: on a concrete score list the selected position beats an
unselected one. -/
theorem uncertain_selection_deterministic_witness :
    [(1 : ℚ), 5, 3][0] < [(1 : ℚ), 5, 3][1] ∨
      ([(1 : ℚ), 5, 3][0] = [(1 : ℚ), 5, 3][1] ∧ 1 < 0) :=
  uncertain_selection_deterministic.2 ℚ [(1 : ℚ), 5, 3] 1 1 (by decide) 0
    (by decide) (by decide) (by decide)

/-! ### Class-balance lemmas -/

theorem foldl_min_spec (l : List ℚ) : ∀ a : ℚ,
    l.foldl min a ∈ a :: l ∧ ∀ b ∈ a :: l, l.foldl min a ≤ b := by
  induction l with
  | nil =>
    intro a
    refine ⟨List.mem_singleton.mpr rfl, ?_⟩
    intro b hb
    have hba : b = a := by simpa using hb
    rw [hba]
    simp
  | cons x xs ih =>
    intro a
    have h := ih (min a x)
    have hfold : (x :: xs).foldl min a = xs.foldl min (min a x) := rfl
    constructor
    · rw [hfold]
      rcases List.mem_cons.mp h.1 with hm | hm
      · rcases min_choice a x with hc | hc
        · rw [hm, hc]
          exact List.mem_cons_self _ _
        · rw [hm, hc]
          exact List.mem_cons.mpr (Or.inr (List.mem_cons_self _ _))
      · exact List.mem_cons.mpr (Or.inr (List.mem_cons.mpr (Or.inr hm)))
    · intro b hb
      rw [hfold]
      rcases List.mem_cons.mp hb with hb1 | hb2
      · rw [hb1]
        exact le_trans (h.2 (min a x) (List.mem_cons_self _ _)) (min_le_left a x)
      · rcases List.mem_cons.mp hb2 with hb3 | hb4
        · rw [hb3]
          exact le_trans (h.2 (min a x) (List.mem_cons_self _ _)) (min_le_right a x)
        · exact h.2 b (List.mem_cons.mpr (Or.inr hb4))

theorem min?_spec (ts : List ℚ) (h : ts ≠ []) :
    ∃ r, ts.min? = some r ∧ r ∈ ts ∧ ∀ b ∈ ts, r ≤ b := by
  cases ts with
  | nil => exact absurd rfl h
  | cons a l => exact ⟨l.foldl min a, rfl, (foldl_min_spec l a).1, (foldl_min_spec l a).2⟩

theorem divTermsAux_spec (balance : List ℚ) :
    ∀ (cls : List (List Nat)) (c : Nat),
      (∀ k, k < cls.length → balance.getD (c + k) 0 ≠ 0) →
      ∃ ts, divTermsAux balance c cls = some ts ∧ ts.length = cls.length ∧
        ∀ k, k < cls.length →
          ts.getD k 0 = ((cls.getD k []).length : ℚ) / balance.getD (c + k) 0 := by
  intro cls
  induction cls with
  | nil =>
    intro c _
    exact ⟨[], rfl, rfl, fun k hk => absurd hk (Nat.not_lt_zero k)⟩
  | cons idxs rest ih =>
    intro c h
    have h0 : balance.getD c 0 ≠ 0 := by
      have h00 := h 0 (by simp)
      simpa using h00
    obtain ⟨ts, hts, hlen, hval⟩ := ih (c + 1) (fun k hk => by
      have hk1 := h (k + 1) (by simpa using Nat.succ_lt_succ hk)
      rwa [show c + (k + 1) = (c + 1) + k by omega] at hk1)
    refine ⟨((idxs.length : ℚ) / balance.getD c 0) :: ts, ?_, by simp [hlen], ?_⟩
    · unfold divTermsAux
      rw [if_neg h0, hts]
      rfl
    · intro k hk
      cases k with
      | zero => simp
      | succ k2 =>
        have hk2 : k2 < rest.length := by simpa using hk
        have hv := hval k2 hk2
        simp only [List.getD_cons_succ]
        rw [hv, show (c + 1) + k2 = c + (k2 + 1) by omega]

theorem balanceKeepAux_some (g : Nat → Nat) (balance : List ℚ) (ref : ℚ) :
    ∀ (cls : List (List Nat)) (c : Nat),
      (∀ k, k < cls.length →
        Int.toNat (Rat.floor (ref * balance.getD (c + k) 0)) ≤ (cls.getD k []).length) →
      ∃ kept, balanceKeepAux g balance ref c cls = some kept := by
  intro cls
  induction cls with
  | nil => intro c _; exact ⟨[], rfl⟩
  | cons idxs rest ih =>
    intro c h
    have h0 : Int.toNat (Rat.floor (ref * balance.getD c 0)) ≤ idxs.length := by
      have h00 := h 0 (by simp)
      simpa using h00
    obtain ⟨kept, hkept⟩ := ih (c + 1) (fun k hk => by
      have hk1 := h (k + 1) (by simpa using Nat.succ_lt_succ hk)
      rwa [show c + (k + 1) = (c + 1) + k by omega] at hk1)
    refine ⟨sampleAux g (Int.toNat (Rat.floor (ref * balance.getD c 0))) 0 idxs ++ kept, ?_⟩
    unfold balanceKeepAux
    rw [randomSample_eq_some g _ _ h0, hkept]
    rfl

/-- C5 counterexample: with two classes holding pool members `[0]` and
`[1]` and multipliers `[1, 0]`, the reference-ratio computation of
`balance_classes` divides by the zero multiplier of class 1 and the
whole operation fails (`ZeroDivisionError`): the min ranges over ALL
classes, a zero-multiplier class is not skipped and is not a no-op, and
a division-by-zero failure is reachable. -/
theorem balance_zero_multiplier_cex :
    balanceRef (classIndices [0, 1] [0, 1] 2) [1, 0] = none ∧
    balance_classes (fun _ => 0) [0, 1] [0, 1] 2 [1, 0] = none := by
  have h : balanceRef (classIndices [0, 1] [0, 1] 2) [1, 0] = none := by decide
  refine ⟨h, ?_⟩
  unfold balance_classes
  rw [h]
  rfl

/-- C5 (amended): the reference ratio is the minimum of `avail_c / m_c`
over ALL classes, not only those with positive multiplier: a class with
multiplier 0 makes the computation fail with a division-by-zero (see
the counterexample), so no-failure holds only when every class
multiplier is positive.  In that case `ref` is well-defined, it is a
lower bound of all per-class ratios, it is attained by some class, and
the whole `balance_classes` operation succeeds. -/
theorem balanceRef_all_pos (subsetIndices targets : List Nat) (numClasses : Nat)
    (balance : List ℚ) (g : Nat → Nat) (h0 : 0 < numClasses)
    (hpos : ∀ c, c < numClasses → 0 < balance.getD c 0) :
    ∃ r, balanceRef (classIndices subsetIndices targets numClasses) balance = some r ∧
      (∀ c, c < numClasses →
        r ≤ (((classIndices subsetIndices targets numClasses).getD c []).length : ℚ) /
          balance.getD c 0) ∧
      (∃ c, c < numClasses ∧
        r = (((classIndices subsetIndices targets numClasses).getD c []).length : ℚ) /
          balance.getD c 0) ∧
      (∃ kept, balance_classes g subsetIndices targets numClasses balance = some kept) := by
  have hclen : (classIndices subsetIndices targets numClasses).length = numClasses := by
    simp [classIndices]
  have hne : ∀ k, k < (classIndices subsetIndices targets numClasses).length →
      balance.getD (0 + k) 0 ≠ 0 := by
    intro k hk
    rw [Nat.zero_add]
    exact ne_of_gt (hpos k (by omega))
  obtain ⟨ts, hts, hlen, hval⟩ := divTermsAux_spec balance _ 0 hne
  have htsne : ts ≠ [] := by
    intro hnil
    rw [hnil] at hlen
    simp at hlen
    rw [hclen] at hlen
    omega
  obtain ⟨r, hmin, hmem, hle⟩ := min?_spec ts htsne
  have href : balanceRef (classIndices subsetIndices targets numClasses) balance = some r := by
    unfold balanceRef
    rw [hts]
    exact hmin
  have hub : ∀ c, c < numClasses →
      r ≤ (((classIndices subsetIndices targets numClasses).getD c []).length : ℚ) /
        balance.getD c 0 := by
    intro c hc
    have hcl : c < ts.length := by rw [hlen, hclen]; exact hc
    have hmemc : ts.getD c 0 ∈ ts := by
      rw [List.getD_eq_getElem _ _ hcl]
      exact List.getElem_mem _
    have hr := hle _ hmemc
    have hv := hval c (by rw [hclen]; exact hc)
    rw [hv, Nat.zero_add] at hr
    exact hr
  refine ⟨r, href, hub, ?_, ?_⟩
  · rcases List.mem_iff_getElem.mp hmem with ⟨k, hk, hkval⟩
    have hkc : k < numClasses := by rw [← hclen, ← hlen]; exact hk
    have hv := hval k (by rw [← hlen]; exact hk)
    rw [List.getD_eq_getElem _ _ hk, hkval, Nat.zero_add] at hv
    exact ⟨k, hkc, hv⟩
  · have hkeep : ∀ k, k < (classIndices subsetIndices targets numClasses).length →
        Int.toNat (Rat.floor (r * balance.getD (0 + k) 0))
          ≤ ((classIndices subsetIndices targets numClasses).getD k []).length := by
      intro k hk
      rw [Nat.zero_add]
      have hck : k < numClasses := by rw [← hclen]; exact hk
      have hm := hpos k hck
      have hub2 := hub k hck
      have hmul : r * balance.getD k 0
          ≤ (((classIndices subsetIndices targets numClasses).getD k []).length : ℚ) :=
        (le_div_iff₀ hm).mp hub2
      have hfl : ((r * balance.getD k 0).floor : ℚ) ≤ r * balance.getD k 0 :=
        Rat.le_floor.mp le_rfl
      have h2 : ((r * balance.getD k 0).floor : ℚ)
          ≤ (((classIndices subsetIndices targets numClasses).getD k []).length : ℚ) :=
        le_trans hfl hmul
      have h3 : (r * balance.getD k 0).floor
          ≤ (((classIndices subsetIndices targets numClasses).getD k []).length : ℤ) := by
        exact_mod_cast h2
      exact Int.toNat_le.mpr h3
    obtain ⟨kept, hkept⟩ := balanceKeepAux_some g balance r _ 0 hkeep
    refine ⟨kept, ?_⟩
    unfold balance_classes
    rw [href]
    exact hkept

/-- C5 witness: a concrete all-positive balance specification, via the
theorem. -/
theorem balanceRef_all_pos_witness :
    ∃ r, balanceRef (classIndices [0, 1] [0, 1] 2) [1, 1] = some r ∧
      (∀ c, c < 2 →
        r ≤ (((classIndices [0, 1] [0, 1] 2).getD c []).length : ℚ) /
          ([1, 1] : List ℚ).getD c 0) ∧
      (∃ c, c < 2 ∧
        r = (((classIndices [0, 1] [0, 1] 2).getD c []).length : ℚ) /
          ([1, 1] : List ℚ).getD c 0) ∧
      (∃ kept, balance_classes (fun _ => 0) [0, 1] [0, 1] 2 [1, 1] = some kept) :=
  balanceRef_all_pos [0, 1] [0, 1] 2 [1, 1] (fun _ => 0) (by decide) (by decide)

/-! ### Entropy lemmas -/

theorem sumPlogp_of_ne_zero : ∀ (ps : List ℝ), (∀ p ∈ ps, p ≠ 0) →
    sumPlogp ps = some ((ps.map (fun p => p * Real.log p)).sum) := by
  intro ps
  induction ps with
  | nil => intro _; simp [sumPlogp]
  | cons p ps ih =>
    intro h
    have hp : p ≠ 0 := h p (List.mem_cons_self _ _)
    have hps := ih (fun q hq => h q (List.mem_cons.mpr (Or.inr hq)))
    simp only [sumPlogp, plogp, if_neg hp, hps, List.map_cons, List.sum_cons]

theorem softmax_mem_ne_zero (logits : List ℝ) : ∀ p ∈ softmax logits, p ≠ 0 := by
  intro p hp
  rcases List.mem_map.mp hp with ⟨x, hx, rfl⟩
  have hsum : 0 < (logits.map Real.exp).sum := by
    have hxn : Real.exp x ∈ logits.map Real.exp := List.mem_map_of_mem _ hx
    calc (0 : ℝ) < Real.exp x := Real.exp_pos x
      _ ≤ (logits.map Real.exp).sum := by
          apply List.single_le_sum ?_ _ hxn
          intro y hy
          rcases List.mem_map.mp hy with ⟨z, _, rfl⟩
          exact le_of_lt (Real.exp_pos z)
  exact div_ne_zero (ne_of_gt (Real.exp_pos x)) (ne_of_gt hsum)

/-- C6 counterexample: the code's entropy expression at the one-hot
distribution `[1, 0]` is NaN (`0 * log 0` is `0 * -inf = NaN` in
torch, modelled `none`) — not `0`: a probability of exactly 0 does not
contribute 0 to the sum, and the entropy of a one-hot distribution is
not 0. -/
theorem entropy_one_hot_cex :
    entropyCode [(1 : ℝ), 0] = none ∧ entropyCode [(1 : ℝ), 0] ≠ some 0 := by
  have h : entropyCode [(1 : ℝ), 0] = none := by
    simp [entropyCode, sumPlogp, plogp]
  exact ⟨h, by rw [h]; exact fun hc => Option.noConfusion hc⟩

/-- C6 (amended): the uncertainty score is the predictive entropy
`-Σ p log p` with natural log; on distributions with no zero entry —
softmax outputs in exact arithmetic are always such — the computation
is NaN-free, and the uniform distribution over `K` classes has entropy
exactly `log K`.  However `0 * log 0` is NOT defined as 0 by the code:
a probability of exactly 0 makes the score NaN (`none`), so the
one-hot-entropy-is-0 clause fails (no exception is raised either
way). -/
theorem entropy_semantics :
    (∀ ps : List ℝ, (∀ p ∈ ps, p ≠ 0) → entropyCode ps = some (entropyReal ps)) ∧
    (∀ K : Nat, 0 < K →
      entropyCode (List.replicate K (1 / (K : ℝ))) = some (Real.log K)) ∧
    (∀ logits : List ℝ, ∀ p ∈ softmax logits, p ≠ 0) := by
  have h1 : ∀ ps : List ℝ, (∀ p ∈ ps, p ≠ 0) → entropyCode ps = some (entropyReal ps) := by
    intro ps h
    unfold entropyCode entropyReal
    rw [sumPlogp_of_ne_zero ps h]
    rfl
  refine ⟨h1, ?_, softmax_mem_ne_zero⟩
  intro K hK
  have hKne : (K : ℝ) ≠ 0 := Nat.cast_ne_zero.mpr (by omega)
  have hne : ∀ p ∈ List.replicate K (1 / (K : ℝ)), p ≠ 0 := by
    intro p hp
    rw [List.eq_of_mem_replicate hp]
    exact one_div_ne_zero hKne
  rw [h1 _ hne]
  congr 1
  unfold entropyReal
  rw [List.map_replicate, List.sum_replicate, nsmul_eq_mul, one_div, Real.log_inv]
  rw [mul_comm ((K : ℝ))⁻¹ (-Real.log K), ← mul_assoc]
  rw [mul_comm (K : ℝ) (-Real.log K), mul_assoc, mul_inv_cancel₀ hKne]
  ring

/-- C6 witness: the uniform distribution over 2 classes has entropy
`log 2`, via the theorem. -/
theorem entropy_semantics_witness :
    entropyCode (List.replicate 2 (1 / (2 : ℝ))) = some (Real.log 2) := by
  have h := entropy_semantics.2.1 2 (by decide)
  simpa using h
